import Mathlib

/-!
Verification of the odds-FEN generator (`lib/fen_generator.py`).

The source file computes a handicap budget from an opponent's Elo, score
history and time control, then removes pieces from one side of a standard
chess starting position by a randomized single-pass greedy fill.  We embed
the pure parts of the module shallowly: squares are python-chess integers
(`square = rank*8 + file`), money values are exact rationals, the real-valued
Elo pipeline (which uses `math.log(·, 2)`) lives over `ℝ` with `Real.logb`.
Randomness (the shuffle, the colour choice, the Gaussian draw) is modelled by
universally quantifying over the shuffled order, the colour and the drawn
value.
-/

namespace FenGen

/-- Piece types as in the `chess` library. -/
inductive PieceType
  | pawn | knight | bishop | rook | queen | king
  deriving DecidableEq, Repr, Fintype

/-- Side colours (`chess.WHITE` / `chess.BLACK`). -/
inductive Color
  | white | black
  deriving DecidableEq, Repr, Fintype

def Color.other : Color → Color
  | .white => .black
  | .black => .white

/-- `piece_values` dict from the source.  The KING key is absent in the
source dict and is never looked up by any call site (generation never lists
the king as a candidate, and `get_expected_elo` skips king squares before
the lookup); we map it to 0. -/
def piece_values : PieceType → ℚ
  | .queen  => 9
  | .rook   => 5
  | .bishop => 3
  | .knight => 3
  | .pawn   => 1
  | .king   => 0

/-- `chess.square_file`. -/
def square_file (sq : Nat) : Nat := sq % 8

/-- `chess.square_rank`. -/
def square_rank (sq : Nat) : Nat := sq / 8

/-- `chess.square(file, rank) = rank * 8 + file`. -/
def square (file rank : Nat) : Nat := rank * 8 + file

/-- `get_positional_multiplier` from the source: mirror the file when the
rank is in the upper half, then bucket by piece type and normalized file. -/
def get_positional_multiplier (sq : Nat) (piece_type : PieceType) : ℚ :=
  let file := square_file sq
  let rank := square_rank sq
  let file := if rank ≥ 4 then 7 - file else file
  if piece_type = .pawn ∧ (file = 3 ∨ file = 4 ∨ file = 5) then 1.2
  else if piece_type = .knight ∧ file = 6 then 1.1
  else if piece_type = .rook ∧ file = 7 then 1.2
  else 1.0

/-- Back rank of the handicapped colour (`0 if bot_color == chess.WHITE else 7`). -/
def back_rank (c : Color) : Nat := if c = .white then 0 else 7

/-- Pawn rank of the handicapped colour (`1 if bot_color == chess.WHITE else 6`). -/
def pawn_rank (c : Color) : Nat := if c = .white then 1 else 6

/-- The `(file, piece_type)` pairs of the back-rank loop in the source. -/
def back_rank_pieces : List (Nat × PieceType) :=
  [(0, .rook), (1, .knight), (2, .bishop), (3, .queen),
   (5, .bishop), (6, .knight), (7, .rook)]

/-- `removable_pieces` as built in `generate_odds_fen`: the seven non-king
back-rank pieces followed by the eight pawns, each paired with its weighted
value `piece_values[piece_type] * multiplier`. -/
def removable_pieces (c : Color) : List (Nat × ℚ) :=
  (back_rank_pieces.map (fun fp =>
    let sq := square fp.1 (back_rank c)
    (sq, piece_values fp.2 * get_positional_multiplier sq fp.2)))
  ++ ((List.range 8).map (fun f =>
    let sq := square f (pawn_rank c)
    (sq, piece_values .pawn * get_positional_multiplier sq .pawn)))

/-- The greedy removal loop of `generate_odds_fen`, candidates already
shuffled.  Mirrors the Python loop body exactly: a guarded append/add,
followed by an unconditional `break` test `current_sum >= S`. -/
def greedy (S : ℚ) : List (Nat × ℚ) → ℚ → List Nat
  | [], _ => []
  | (sq, v) :: rest, current_sum =>
    if current_sum + v < S then
      if current_sum + v ≥ S then [sq]
      else sq :: greedy S rest (current_sum + v)
    else
      if current_sum ≥ S then []
      else greedy S rest current_sum

/-- The final value of `current_sum` after the loop. -/
def greedyFinal (S : ℚ) : List (Nat × ℚ) → ℚ → ℚ
  | [], current_sum => current_sum
  | (_, v) :: rest, current_sum =>
    if current_sum + v < S then
      if current_sum + v ≥ S then current_sum + v
      else greedyFinal S rest (current_sum + v)
    else
      if current_sum ≥ S then current_sum
      else greedyFinal S rest current_sum

/-- The same loop with the `break` test removed: every candidate is examined. -/
def greedyNoBreak (S : ℚ) : List (Nat × ℚ) → ℚ → List Nat
  | [], _ => []
  | (sq, v) :: rest, current_sum =>
    if current_sum + v < S then sq :: greedyNoBreak S rest (current_sum + v)
    else greedyNoBreak S rest current_sum

/-- A board maps python-chess square numbers to pieces.  `chess.Board()`'s
standard initial arrangement; squares ≥ 64 never hold a piece. -/
def initial_board : Nat → Option (PieceType × Color) := fun sq =>
  let f := square_file sq
  let r := square_rank sq
  let btype : PieceType :=
    match f with
    | 0 => .rook | 1 => .knight | 2 => .bishop | 3 => .queen
    | 4 => .king | 5 => .bishop | 6 => .knight | _ => .rook
  if r = 0 then some (btype, .white)
  else if r = 1 then some (.pawn, .white)
  else if r = 6 then some (.pawn, .black)
  else if r = 7 then some (btype, .black)
  else none

/-- `board.remove_piece_at(square)`. -/
def remove_piece_at (b : Nat → Option (PieceType × Color)) (sq : Nat) :
    Nat → Option (PieceType × Color) :=
  fun s => if s = sq then none else b s

/-- The removal loop of `generate_odds_fen`: remove every selected square. -/
def apply_removals (b : Nat → Option (PieceType × Color)) (l : List Nat) :
    Nat → Option (PieceType × Color) :=
  l.foldl remove_piece_at b

/-- The accumulation of `total_penalty` in `get_expected_elo`: over every
occupied square, skip kings, otherwise add the weighted value signed `+1`
for an opposing piece and `-1` for the bot's own piece. -/
def total_penalty (b : Nat → Option (PieceType × Color)) (bot_color : Color) : ℚ :=
  (List.range 64).foldl (fun acc sq =>
    match b sq with
    | none => acc
    | some (piece_type, c) =>
      if piece_type = .king then acc
      else acc + piece_values piece_type * get_positional_multiplier sq piece_type *
        (if c ≠ bot_color then 1 else -1)) 0

/-- `get_expected_elo` (board already parsed into our board model). -/
def get_expected_elo (b : Nat → Option (PieceType × Color)) (bot_color : Color)
    (pawn_to_elo base_elo : ℚ) : ℚ :=
  base_elo - pawn_to_elo * total_penalty b bot_color

/-! ### The Elo adjustment pipeline of `generate_odds_fen`

The deterministic numeric steps, named after the local variables of the
source.  `math.log(time_ratio, 2)` forces this part of the embedding into
`ℝ` (`Real.logb 2`); the Gaussian draw `random.gauss(0, variation_std)` is
modelled by an arbitrary real argument `g`, clamped exactly as the source
clamps it. -/

/-- `delta = (2 * bot_score - num_games) * (400.0 / (num_games + 10))`. -/
noncomputable def delta (num_games bot_score : ℝ) : ℝ :=
  (2 * bot_score - num_games) * (400 / (num_games + 10))

/-- `adjusted_elo = opponent_elo - delta`. -/
noncomputable def adjusted_elo (opponent_elo num_games bot_score : ℝ) : ℝ :=
  opponent_elo - delta num_games bot_score

/-- `base_time = base_initial + base_increment * average_moves` with
`base_initial = 180`, `base_increment = 2`. -/
noncomputable def base_time (average_moves : ℝ) : ℝ := 180 + 2 * average_moves

/-- `current_time = max(1, initial_time + increment * average_moves)`. -/
noncomputable def current_time (initial_time increment average_moves : ℝ) : ℝ :=
  max 1 (initial_time + increment * average_moves)

/-- `time_adjustment = time_doubling_elo * math.log(time_ratio, 2)`. -/
noncomputable def time_adjustment (initial_time increment average_moves time_doubling_elo : ℝ) : ℝ :=
  time_doubling_elo *
    Real.logb 2 (current_time initial_time increment average_moves / base_time average_moves)

/-- `effective_elo`, with the clamped Gaussian draw `g`. -/
noncomputable def effective_elo (opponent_elo num_games bot_score initial_time increment
    max_variation average_moves time_doubling_elo g : ℝ) : ℝ :=
  adjusted_elo opponent_elo num_games bot_score
    + time_adjustment initial_time increment average_moves time_doubling_elo
    + max (-max_variation) (min max_variation g)

/-- `S = max(0, (base_elo - effective_elo) / pawn_to_elo)`: the handicap
budget computed by `generate_odds_fen`. -/
noncomputable def S_of (opponent_elo num_games bot_score initial_time increment
    pawn_to_elo max_variation base_elo average_moves time_doubling_elo g : ℝ) : ℝ :=
  max 0 ((base_elo - effective_elo opponent_elo num_games bot_score initial_time increment
    max_variation average_moves time_doubling_elo g) / pawn_to_elo)

/-- Python error behaviour of the numeric pipeline: `400.0/(num_games+10)`
raises ZeroDivisionError when `num_games = -10`; `current_time/base_time`
raises ZeroDivisionError when `base_time = 0`; `math.log(time_ratio, 2)`
raises ValueError when `time_ratio ≤ 0`.  No other statement can raise. -/
inductive PyError
  | zeroDivision | valueError
  deriving DecidableEq, Repr

/-- The conditions, in evaluation order, under which `generate_odds_fen`
raises an exception; `none` means the call completes normally. -/
def elo_failure (num_games initial_time increment average_moves : ℚ) : Option PyError :=
  if num_games + 10 = 0 then some .zeroDivision
  else
    let bt := 180 + 2 * average_moves
    let ct := max 1 (initial_time + increment * average_moves)
    if bt = 0 then some .zeroDivision
    else if ct / bt ≤ 0 then some .valueError
    else none

/-! ### Spec-side comparator definitions (for refinement claims) -/

/-- Spec-worded single-pass marking rule, for comparison with `greedy`:
start from `currentSum = -0.35`; for each candidate in order, if
`currentSum + v < S` mark the square and add `v`; regardless of whether the
candidate was marked, stop as soon as `currentSum ≥ S`. -/
def specStep (S : ℚ) (st : ℚ × List Nat × Bool) (c : Nat × ℚ) : ℚ × List Nat × Bool :=
  match st with
  | (currentSum, marked, stopped) =>
    if stopped then (currentSum, marked, stopped)
    else
      let currentSum2 := if currentSum + c.2 < S then currentSum + c.2 else currentSum
      let marked2 := if currentSum + c.2 < S then marked ++ [c.1] else marked
      (currentSum2, marked2, decide (currentSum2 ≥ S))

/-- The set of squares marked by the spec's single-pass rule. -/
def specGreedy (S : ℚ) (l : List (Nat × ℚ)) : List Nat :=
  (l.foldl (specStep S) (-0.35, [], false)).2.1

/-- Spec-worded positional multiplier over `(file, rank)` coordinates, for
comparison with `get_positional_multiplier`. -/
def positionalMultiplier_spec (f r : Nat) (pt : PieceType) : ℚ :=
  let nf := if r ≥ 4 then 7 - f else f
  if pt = .pawn ∧ (nf = 3 ∨ nf = 4 ∨ nf = 5) then 1.2
  else if pt = .knight ∧ nf = 6 then 1.1
  else if pt = .rook ∧ nf = 7 then 1.2
  else 1.0

/-! ### Instrumented variants of the greedy loop, used to state invariants -/

/-- Like `greedy` but keeping each removed candidate's value alongside its
square, so the total removed weight can be spoken about. -/
def greedyPairs (S : ℚ) : List (Nat × ℚ) → ℚ → List (Nat × ℚ)
  | [], _ => []
  | (sq, v) :: rest, current_sum =>
    if current_sum + v < S then
      if current_sum + v ≥ S then [(sq, v)]
      else (sq, v) :: greedyPairs S rest (current_sum + v)
    else
      if current_sum ≥ S then []
      else greedyPairs S rest current_sum

/-! ### Helper lemmas about the greedy loop -/

/-- Stepwise invariant: when `current_sum < S` on entry, the break test can
never fire (each addition is guarded by `current_sum + v < S`), so the loop
with break agrees with the break-free loop, and the final sum stays `< S`. -/
theorem greedy_invariant_aux (S : ℚ) (l : List (Nat × ℚ)) : ∀ cur : ℚ, cur < S →
    greedy S l cur = greedyNoBreak S l cur ∧ greedyFinal S l cur < S := by
  induction l with
  | nil => exact fun cur h => ⟨rfl, h⟩
  | cons p rest ih =>
    intro cur h
    obtain ⟨sq, v⟩ := p
    by_cases hv : cur + v < S
    · have hrec := ih (cur + v) hv
      simp only [greedy, greedyNoBreak, greedyFinal, if_pos hv, if_neg (not_le.mpr hv)]
      exact ⟨by rw [hrec.1], hrec.2⟩
    · have hrec := ih cur h
      simp only [greedy, greedyNoBreak, greedyFinal, if_neg hv, if_neg (not_le.mpr h)]
      exact hrec

/-- The instrumented loop marks the same squares as the source loop. -/
theorem greedyPairs_fst (S : ℚ) (l : List (Nat × ℚ)) : ∀ cur : ℚ,
    (greedyPairs S l cur).map Prod.fst = greedy S l cur := by
  induction l with
  | nil => intro cur; rfl
  | cons p rest ih =>
    intro cur
    obtain ⟨sq, v⟩ := p
    by_cases hv : cur + v < S
    · by_cases hb : cur + v ≥ S
      · simp [greedyPairs, greedy, if_pos hv, if_pos hb]
      · simp [greedyPairs, greedy, if_pos hv, if_neg hb, ih]
    · by_cases hb : cur ≥ S
      · simp [greedyPairs, greedy, if_neg hv, if_pos hb]
      · simp [greedyPairs, greedy, if_neg hv, if_neg hb, ih]

/-- The final `current_sum` is the initial one plus the removed weight. -/
theorem greedyPairs_sum (S : ℚ) (l : List (Nat × ℚ)) : ∀ cur : ℚ,
    cur + ((greedyPairs S l cur).map Prod.snd).sum = greedyFinal S l cur := by
  induction l with
  | nil => intro cur; simp [greedyPairs, greedyFinal]
  | cons p rest ih =>
    intro cur
    obtain ⟨sq, v⟩ := p
    by_cases hv : cur + v < S
    · by_cases hb : cur + v ≥ S
      · simp [greedyPairs, greedyFinal, if_pos hv, if_pos hb]
      · simp only [greedyPairs, greedyFinal, if_pos hv, if_neg hb, List.map_cons,
          List.sum_cons]
        rw [← ih (cur + v)]
        ring
    · by_cases hb : cur ≥ S
      · simp [greedyPairs, greedyFinal, if_neg hv, if_pos hb]
      · simp only [greedyPairs, greedyFinal, if_neg hv, if_neg hb]
        exact ih cur

/-- The spec's fold agrees with the source loop while the sum is below `S`. -/
theorem specGreedy_aux (S : ℚ) (l : List (Nat × ℚ)) : ∀ (cur : ℚ) (acc : List Nat),
    cur < S → (l.foldl (specStep S) (cur, acc, false)).2.1 = acc ++ greedy S l cur := by
  induction l with
  | nil => intro cur acc _; simp [greedy]
  | cons p rest ih =>
    intro cur acc h
    obtain ⟨sq, v⟩ := p
    by_cases hv : cur + v < S
    · have hlt : ¬ (cur + v ≥ S) := not_le.mpr hv
      simp only [List.foldl_cons, specStep, if_pos hv, Bool.false_eq_true, if_neg,
        decide_eq_true_eq, ge_iff_le]
      rw [if_neg (by simp), show decide (S ≤ cur + v) = false by simpa using hv]
      rw [ih (cur + v) (acc ++ [sq]) hv]
      simp [greedy, if_pos hv, if_neg hlt]
    · simp only [List.foldl_cons, specStep, ge_iff_le]
      rw [if_neg (by simp), if_neg hv, if_neg hv,
        show decide (S ≤ cur) = false by simpa using h]
      rw [ih cur acc h]
      simp [greedy, if_neg hv, if_neg (not_le.mpr h)]

/-- Squares marked by the loop come from the candidate list. -/
theorem greedy_subset (S : ℚ) (l : List (Nat × ℚ)) : ∀ (cur : ℚ) (x : Nat),
    x ∈ greedy S l cur → x ∈ l.map Prod.fst := by
  induction l with
  | nil => intro cur x hx; simp [greedy] at hx
  | cons p rest ih =>
    intro cur x hx
    obtain ⟨sq, v⟩ := p
    by_cases hv : cur + v < S
    · by_cases hb : cur + v ≥ S
      · simp only [greedy, if_pos hv, if_pos hb, List.mem_singleton] at hx
        simp [hx]
      · simp only [greedy, if_pos hv, if_neg hb, List.mem_cons] at hx
        rcases hx with hx | hx
        · simp [hx]
        · simp [ih _ _ hx]
    · by_cases hb : cur ≥ S
      · simp [greedy, if_neg hv, if_pos hb] at hx
      · simp only [greedy, if_neg hv, if_neg hb] at hx
        simp [ih _ _ hx]

/-- The loop removes at most as many squares as there are candidates. -/
theorem greedy_length (S : ℚ) (l : List (Nat × ℚ)) : ∀ cur : ℚ,
    (greedy S l cur).length ≤ l.length := by
  induction l with
  | nil => intro cur; simp [greedy]
  | cons p rest ih =>
    intro cur
    obtain ⟨sq, v⟩ := p
    by_cases hv : cur + v < S
    · by_cases hb : cur + v ≥ S
      · simp [greedy, if_pos hv, if_pos hb]
      · simpa [greedy, if_pos hv, if_neg hb, Nat.succ_le_succ_iff] using ih (cur + v)
    · by_cases hb : cur ≥ S
      · simp [greedy, if_neg hv, if_pos hb]
      · simp only [greedy, if_neg hv, if_neg hb, List.length_cons]
        exact le_trans (ih cur) (Nat.le_succ _)

/-- Removing a list of squares leaves any square not in the list untouched. -/
theorem apply_removals_not_mem (l : List Nat) : ∀ (b : Nat → Option (PieceType × Color))
    (sq : Nat), sq ∉ l → apply_removals b l sq = b sq := by
  induction l with
  | nil => intro b sq _; rfl
  | cons a rest ih =>
    intro b sq hsq
    have h1 : sq ≠ a := fun h => hsq (h ▸ List.mem_cons_self a rest)
    have h2 : sq ∉ rest := fun h => hsq (List.mem_cons_of_mem a h)
    simp only [apply_removals, List.foldl_cons] at *
    rw [ih _ sq h2, remove_piece_at, if_neg h1]

/-- Squares beyond the 8×8 board never hold a piece. -/
theorem initial_board_none (sq : Nat) (h : 64 ≤ sq) : initial_board sq = none := by
  have hr : 8 ≤ square_rank sq := by
    simpa [square_rank] using Nat.le_div_iff_mul_le (by norm_num) |>.mpr (by omega)
  unfold initial_board
  simp only []
  rw [if_neg (by omega), if_neg (by omega), if_neg (by omega), if_neg (by omega)]

/-- White's candidate list, written out (a8…h1 numbering as in python-chess). -/
theorem removable_white_eq : removable_pieces .white =
    [(0, 5), (1, 3), (2, 3), (3, 9), (5, 3), (6, 3.3), (7, 6),
     (8, 1), (9, 1), (10, 1), (11, 1.2), (12, 1.2), (13, 1.2), (14, 1), (15, 1)] := by
  simp [removable_pieces, back_rank_pieces, back_rank, pawn_rank, square,
    get_positional_multiplier, square_file, square_rank, piece_values, List.range_succ]
  norm_num

/-- Black's candidate list, written out. -/
theorem removable_black_eq : removable_pieces .black =
    [(56, 6), (57, 3.3), (58, 3), (59, 9), (61, 3), (62, 3), (63, 5),
     (48, 1), (49, 1), (50, 1.2), (51, 1.2), (52, 1.2), (53, 1), (54, 1), (55, 1)] := by
  simp [removable_pieces, back_rank_pieces, back_rank, pawn_rank, square,
    get_positional_multiplier, square_file, square_rank, piece_values, List.range_succ]
  norm_num

/-- The candidate squares of either side. -/
theorem removable_squares (c : Color) : (removable_pieces c).map Prod.fst =
    if c = .white then [0, 1, 2, 3, 5, 6, 7, 8, 9, 10, 11, 12, 13, 14, 15]
    else [56, 57, 58, 59, 61, 62, 63, 48, 49, 50, 51, 52, 53, 54, 55] := by
  cases c <;> simp [removable_white_eq, removable_black_eq]

/-- On-board squares occupied by the non-handicapped side are never removal
candidates of the handicapped side. -/
theorem other_side_not_candidate_fin (c : Color) : ∀ (sq : Fin 64) (pt : PieceType),
    initial_board sq.val = some (pt, c.other) →
    sq.val ∉ (removable_pieces c).map Prod.fst := by
  rw [removable_squares]
  cases c <;> decide

/-- Candidate values of either side are all at least one pawn. -/
theorem removable_values_ge_one (c : Color) : ∀ p ∈ removable_pieces c, (1 : ℚ) ≤ p.2 := by
  cases c
  · rw [removable_white_eq]; intro p hp; fin_cases hp <;> norm_num
  · rw [removable_black_eq]; intro p hp; fin_cases hp <;> norm_num

/-- With budget `S = 0` the fill test `current_sum + v < 0` never passes once
every candidate value is at least 1 and the running sum stays in `[-1, 0)`. -/
theorem greedy_zero_aux (l : List (Nat × ℚ)) (hl : ∀ p ∈ l, (1 : ℚ) ≤ p.2) :
    ∀ cur : ℚ, cur < 0 → 0 ≤ cur + 1 → greedy 0 l cur = [] := by
  induction l with
  | nil => intro cur _ _; rfl
  | cons p rest ih =>
    intro cur hneg hge
    obtain ⟨sq, v⟩ := p
    have hv : (1 : ℚ) ≤ v := hl (sq, v) (List.mem_cons_self _ _)
    have hfit : ¬ (cur + v < 0) := by linarith
    simp only [greedy, if_neg hfit, if_neg (not_le.mpr hneg)]
    exact ih (fun q hq => hl q (List.mem_cons_of_mem _ hq)) cur hneg hge

/-! ### Claim theorems -/

/-- C1: for every budget `S ≥ 0` and every ordering of the 15 removal
candidates, the source's greedy loop marks exactly the squares of the spec's
single-pass rule (start at `-0.35`, mark when `currentSum + v < S` then add
`v`, stop as soon as `currentSum ≥ S`), with no backtracking. -/
theorem greedy_matches_spec_rule (S : ℚ) (c : Color) (cands : List (Nat × ℚ))
    (hS : 0 ≤ S) (_hperm : cands.Perm (removable_pieces c)) :
    greedy S cands (-0.35) = specGreedy S cands := by
  have h : (-0.35 : ℚ) < S := by linarith
  rw [specGreedy, specGreedy_aux S cands (-0.35) [] h, List.nil_append]

/-- Witness for C1 at `S = 3` and the identity ordering of White's candidates. -/
theorem greedy_matches_spec_rule_witness :
    (0 : ℚ) ≤ 3 ∧ (removable_pieces .white).Perm (removable_pieces .white) ∧
    greedy 3 (removable_pieces .white) (-0.35) = specGreedy 3 (removable_pieces .white) :=
  ⟨by norm_num, List.Perm.refl _,
    greedy_matches_spec_rule 3 .white (removable_pieces .white) (by norm_num)
      (List.Perm.refl _)⟩

/-- C3: the handicap budget `S = max(0, (baseElo − effectiveElo)/pawnToElo)`
is non-negative for every input, including every value of the Gaussian draw. -/
theorem budget_nonneg (opponent_elo num_games bot_score initial_time increment
    pawn_to_elo max_variation base_elo average_moves time_doubling_elo g : ℝ) :
    0 ≤ S_of opponent_elo num_games bot_score initial_time increment
      pawn_to_elo max_variation base_elo average_moves time_doubling_elo g :=
  le_max_left _ _

/-- C6: the source's positional multiplier agrees with the spec's rule
(mirror the file when rank ≥ 4, then 1.2 for central pawns, 1.1 for the
g-file knight, 1.2 for the h-file rook, else 1.0) on every board square and
piece type, and the base values are QUEEN=9, ROOK=5, BISHOP=3, KNIGHT=3,
PAWN=1. -/
theorem positional_multiplier_correct :
    (∀ (f r : Fin 8) (pt : PieceType),
      get_positional_multiplier (square f.val r.val) pt = positionalMultiplier_spec f.val r.val pt) ∧
    piece_values .queen = 9 ∧ piece_values .rook = 5 ∧ piece_values .bishop = 3 ∧
    piece_values .knight = 3 ∧ piece_values .pawn = 1 := by
  refine ⟨fun f r pt => ?_, rfl, rfl, rfl, rfl, rfl⟩
  fin_cases f <;> fin_cases r <;> cases pt <;> rfl

/-- C7: with budget `S = 0`, no candidate is marked (every weighted value is
≥ 1 and the sum starts at `-0.35`), so the emitted board is the standard
initial position, whichever side was chosen. -/
theorem zero_budget_no_removals (c : Color) (cands : List (Nat × ℚ))
    (hperm : cands.Perm (removable_pieces c)) :
    greedy 0 cands (-0.35) = [] ∧
    ∀ sq : Nat, apply_removals initial_board (greedy 0 cands (-0.35)) sq = initial_board sq := by
  have hvals : ∀ p ∈ cands, (1 : ℚ) ≤ p.2 := fun p hp =>
    removable_values_ge_one c p (hperm.mem_iff.mp hp)
  have hnil : greedy 0 cands (-0.35) = [] :=
    greedy_zero_aux cands hvals (-0.35) (by norm_num) (by norm_num)
  exact ⟨hnil, fun sq => by rw [hnil]; rfl⟩

/-- Witness for C7 with the handicapped side White and the identity ordering. -/
theorem zero_budget_no_removals_witness :
    (removable_pieces .white).Perm (removable_pieces .white) ∧
    (greedy 0 (removable_pieces .white) (-0.35) = [] ∧
     ∀ sq : Nat, apply_removals initial_board
       (greedy 0 (removable_pieces .white) (-0.35)) sq = initial_board sq) :=
  ⟨List.Perm.refl _,
    zero_budget_no_removals .white (removable_pieces .white) (List.Perm.refl _)⟩

/-- C8: on the unmodified standard starting position the signed weighted
penalty sums to exactly zero, so the inverse estimator returns exactly
`baseElo` for either designated side and any tunables. -/
theorem expected_elo_initial_board :
    total_penalty initial_board .white = 0 ∧ total_penalty initial_board .black = 0 ∧
    ∀ (pawn_to_elo base_elo : ℚ) (c : Color),
      get_expected_elo initial_board c pawn_to_elo base_elo = base_elo := by
  have hw : total_penalty initial_board .white = 0 := by
    rw [total_penalty, show List.range 64 = [0, 1, 2, 3, 4, 5, 6, 7, 8, 9, 10, 11, 12, 13, 14, 15, 16, 17, 18, 19, 20, 21, 22, 23, 24, 25, 26, 27, 28, 29, 30, 31, 32, 33, 34, 35, 36, 37, 38, 39, 40, 41, 42, 43, 44, 45, 46, 47, 48, 49, 50, 51, 52, 53, 54, 55, 56, 57, 58, 59, 60, 61, 62, 63] from rfl]
    simp [initial_board, square_file, square_rank, get_positional_multiplier, piece_values]
  have hb : total_penalty initial_board .black = 0 := by
    rw [total_penalty, show List.range 64 = [0, 1, 2, 3, 4, 5, 6, 7, 8, 9, 10, 11, 12, 13, 14, 15, 16, 17, 18, 19, 20, 21, 22, 23, 24, 25, 26, 27, 28, 29, 30, 31, 32, 33, 34, 35, 36, 37, 38, 39, 40, 41, 42, 43, 44, 45, 46, 47, 48, 49, 50, 51, 52, 53, 54, 55, 56, 57, 58, 59, 60, 61, 62, 63] from rfl]
    simp [initial_board, square_file, square_rank, get_positional_multiplier, piece_values]
  refine ⟨hw, hb, fun pawn_to_elo base_elo c => ?_⟩
  cases c <;> simp [get_expected_elo, hw, hb]

/-- C10: with `S ≥ 0` the running sum stays strictly below `S`, the break
never fires, all 15 candidates are examined, and the total weighted value
removed is strictly below `S + 0.35`. -/
theorem greedy_never_breaks (S : ℚ) (c : Color) (cands : List (Nat × ℚ))
    (hS : 0 ≤ S) (hperm : cands.Perm (removable_pieces c)) :
    cands.length = 15 ∧
    greedy S cands (-0.35) = greedyNoBreak S cands (-0.35) ∧
    greedyFinal S cands (-0.35) < S ∧
    (greedyPairs S cands (-0.35)).map Prod.fst = greedy S cands (-0.35) ∧
    ((greedyPairs S cands (-0.35)).map Prod.snd).sum < S + 0.35 := by
  have hstart : (-0.35 : ℚ) < S := by linarith
  have hinv := greedy_invariant_aux S cands (-0.35) hstart
  have hlen : cands.length = 15 := by
    rw [hperm.length_eq]; cases c <;> rfl
  have hsum := greedyPairs_sum S cands (-0.35)
  refine ⟨hlen, hinv.1, hinv.2, greedyPairs_fst S cands (-0.35), ?_⟩
  have := hinv.2
  linarith [hsum]

/-- Witness for C10 at `S = 3` with White's candidates in source order. -/
theorem greedy_never_breaks_witness :
    (0 : ℚ) ≤ 3 ∧ (removable_pieces .white).Perm (removable_pieces .white) ∧
    ((removable_pieces .white).length = 15 ∧
     greedy 3 (removable_pieces .white) (-0.35) =
       greedyNoBreak 3 (removable_pieces .white) (-0.35) ∧
     greedyFinal 3 (removable_pieces .white) (-0.35) < 3 ∧
     (greedyPairs 3 (removable_pieces .white) (-0.35)).map Prod.fst =
       greedy 3 (removable_pieces .white) (-0.35) ∧
     ((greedyPairs 3 (removable_pieces .white) (-0.35)).map Prod.snd).sum < 3 + 0.35) :=
  ⟨by norm_num, List.Perm.refl _,
    greedy_never_breaks 3 .white (removable_pieces .white) (by norm_num) (List.Perm.refl _)⟩

/-- C2: the deterministic Elo-adjustment steps compute exactly the spec's
formulas, and on the example inputs (opponentElo 2000, 10 games, score 8,
60+1 time control, default tunables) they give delta = 120,
adjustedElo = 1880, baseTime = 260, currentTime = 100. -/
theorem elo_adjustment_formulas :
    (∀ num_games bot_score : ℝ,
      delta num_games bot_score = (2 * bot_score - num_games) * 400 / (num_games + 10)) ∧
    (∀ opponent_elo num_games bot_score : ℝ,
      adjusted_elo opponent_elo num_games bot_score
        = opponent_elo - delta num_games bot_score) ∧
    (∀ average_moves : ℝ, base_time average_moves = 180 + 2 * average_moves) ∧
    (∀ initial_time increment average_moves : ℝ,
      current_time initial_time increment average_moves
        = max 1 (initial_time + increment * average_moves)) ∧
    (∀ initial_time increment average_moves time_doubling_elo : ℝ,
      time_adjustment initial_time increment average_moves time_doubling_elo
        = time_doubling_elo * Real.logb 2
            (current_time initial_time increment average_moves / base_time average_moves)) ∧
    delta 10 8 = 120 ∧ adjusted_elo 2000 10 8 = 1880 ∧ base_time 40 = 260 ∧
    current_time 60 1 40 = 100 := by
  refine ⟨fun ng s => by rw [delta, mul_div_assoc], fun _ _ _ => rfl, fun _ => rfl,
    fun _ _ _ => rfl, fun _ _ _ _ => rfl, by norm_num [delta],
    by norm_num [adjusted_elo, delta], by norm_num [base_time], ?_⟩
  rw [current_time]
  rw [show (60 : ℝ) + 1 * 40 = 100 by norm_num, max_eq_right (by norm_num : (1:ℝ) ≤ 100)]

/-- The time factor vanishes for a 180+2 time control with the default 40
average moves: the current time equals the 260-second reference time. -/
theorem time_adjustment_reference (time_doubling_elo : ℝ) :
    time_adjustment 180 2 40 time_doubling_elo = 0 := by
  rw [time_adjustment, current_time, base_time]
  rw [show (180 : ℝ) + 2 * 40 = 260 by norm_num, max_eq_right (by norm_num : (1:ℝ) ≤ 260)]
  rw [show (260 : ℝ) / 260 = 1 by norm_num, Real.logb_one, mul_zero]

/-- Evaluation of the budget at a 180+2 time control, draw 0 and default
tunables, as a function of the score against a 2000-rated opponent after
ten games. -/
theorem S_of_example (s : ℝ) :
    S_of 2000 10 s 180 2 100 200 3000 40 200 0 = max 0 ((800 + 40 * s) / 100) := by
  rw [S_of, effective_elo, adjusted_elo, delta, time_adjustment_reference]
  rw [show max (-(200:ℝ)) (min 200 0) = 0 by
    rw [min_eq_right (by norm_num : (0:ℝ) ≤ 200), max_eq_right (by norm_num : -(200:ℝ) ≤ 0)]]
  norm_num
  congr 1
  ring

/-- C4 fails on the code: with everything else fixed (default tunables,
180+2 time control, zero draw), raising the score from 8 to 9 *increases*
the budget from 11.2 to 11.6 instead of decreasing it. -/
theorem budget_score_cex :
    S_of 2000 10 8 180 2 100 200 3000 40 200 0
      < S_of 2000 10 9 180 2 100 200 3000 40 200 0 := by
  rw [S_of_example, S_of_example]
  rw [show ((800:ℝ) + 40 * 8) / 100 = 11.2 by norm_num,
    show ((800:ℝ) + 40 * 9) / 100 = 11.6 by norm_num,
    max_eq_right (by norm_num : (0:ℝ) ≤ 11.2), max_eq_right (by norm_num : (0:ℝ) ≤ 11.6)]
  norm_num

/-- C4 amended: for positive `pawnToElo` and `gamesPlayed > -10`, increasing
the cumulative score weakly *increases* the budget, and strictly increases
it whenever the budget at the lower score is not clamped to zero. -/
theorem budget_monotone_in_score (opponent_elo num_games initial_time increment
    pawn_to_elo max_variation base_elo average_moves time_doubling_elo g s1 s2 : ℝ)
    (hng : -10 < num_games) (hp : 0 < pawn_to_elo) (hs : s1 < s2) :
    S_of opponent_elo num_games s1 initial_time increment pawn_to_elo max_variation
        base_elo average_moves time_doubling_elo g
      ≤ S_of opponent_elo num_games s2 initial_time increment pawn_to_elo max_variation
        base_elo average_moves time_doubling_elo g ∧
    (0 < S_of opponent_elo num_games s1 initial_time increment pawn_to_elo max_variation
        base_elo average_moves time_doubling_elo g →
      S_of opponent_elo num_games s1 initial_time increment pawn_to_elo max_variation
          base_elo average_moves time_doubling_elo g
        < S_of opponent_elo num_games s2 initial_time increment pawn_to_elo max_variation
          base_elo average_moves time_doubling_elo g) := by
  have hk : 0 < 400 / (num_games + 10) := div_pos (by norm_num) (by linarith)
  have heff : effective_elo opponent_elo num_games s2 initial_time increment
      max_variation average_moves time_doubling_elo g
      < effective_elo opponent_elo num_games s1 initial_time increment
      max_variation average_moves time_doubling_elo g := by
    simp only [effective_elo, adjusted_elo, delta]
    have : (2 * s1 - num_games) * (400 / (num_games + 10))
        < (2 * s2 - num_games) * (400 / (num_games + 10)) := by
      apply mul_lt_mul_of_pos_right _ hk
      linarith
    linarith
  have hx : (base_elo - effective_elo opponent_elo num_games s1 initial_time increment
      max_variation average_moves time_doubling_elo g) / pawn_to_elo
      < (base_elo - effective_elo opponent_elo num_games s2 initial_time increment
      max_variation average_moves time_doubling_elo g) / pawn_to_elo := by
    apply div_lt_div_of_pos_right _ hp
    linarith
  constructor
  · exact max_le_max le_rfl (le_of_lt hx)
  · intro hpos
    have h1 : 0 < (base_elo - effective_elo opponent_elo num_games s1 initial_time increment
        max_variation average_moves time_doubling_elo g) / pawn_to_elo := by
      by_contra hle
      push_neg at hle
      rw [S_of, max_eq_left hle] at hpos
      exact absurd hpos (lt_irrefl 0)
    rw [S_of, S_of, max_eq_right (le_of_lt h1), max_eq_right (le_of_lt (lt_trans h1 hx))]
    exact hx

/-- Witness for the amended C4 at the counterexample's inputs. -/
theorem budget_monotone_in_score_witness :
    (-10 : ℝ) < 10 ∧ (0 : ℝ) < 100 ∧ (8 : ℝ) < 9 ∧
    (S_of 2000 10 8 180 2 100 200 3000 40 200 0
        ≤ S_of 2000 10 9 180 2 100 200 3000 40 200 0 ∧
      (0 < S_of 2000 10 8 180 2 100 200 3000 40 200 0 →
        S_of 2000 10 8 180 2 100 200 3000 40 200 0
          < S_of 2000 10 9 180 2 100 200 3000 40 200 0)) :=
  ⟨by norm_num, by norm_num, by norm_num,
    budget_monotone_in_score 2000 10 180 2 100 200 3000 40 200 0 8 9
      (by norm_num) (by norm_num) (by norm_num)⟩

/-- C5 fails on the code: a context with negative games played and negative
time values raises nothing at all — the pipeline completes normally and in
particular never surfaces an InvalidInput error. -/
theorem no_invalid_input_cex : elo_failure (-1) (-5) (-3) 40 = none := by
  simp only [elo_failure]
  norm_num [max_def]

/-- C5 amended: the entry point performs no input validation; with the
default `averageMoves` its only failure mode is a ZeroDivisionError at
`gamesPlayed = -10`, every other input (negative games, out-of-range score,
negative times) being accepted silently. -/
theorem elo_failure_characterization (num_games initial_time increment : ℚ)
    (hng : num_games + 10 ≠ 0) :
    elo_failure num_games initial_time increment 40 = none ∧
    elo_failure (-10) 60 1 40 = some .zeroDivision := by
  constructor
  · have hbt : (180 : ℚ) + 2 * 40 ≠ 0 := by norm_num
    have hct : ¬ (max 1 (initial_time + increment * 40) / (180 + 2 * 40) ≤ 0) := by
      push_neg
      apply div_pos (lt_of_lt_of_le one_pos (le_max_left _ _)) (by norm_num)
    simp only [elo_failure, if_neg hng, if_neg hbt, if_neg hct]
  · norm_num [elo_failure]

/-- Witness for the amended C5 at games 5, time −7, increment −1. -/
theorem elo_failure_characterization_witness :
    (5 : ℚ) + 10 ≠ 0 ∧
    (elo_failure 5 (-7) (-1) 40 = none ∧
      elo_failure (-10) 60 1 40 = some .zeroDivision) :=
  ⟨by norm_num, elo_failure_characterization 5 (-7) (-1) (by norm_num)⟩

/-- C9: whatever the budget and the shuffle, the emitted board keeps the
handicapped side's king on its home square, removes at most 15 pieces, and
leaves every piece of the non-handicapped side untouched. -/
theorem synthesizer_frame (c : Color) (S : ℚ) (cands : List (Nat × ℚ))
    (hperm : cands.Perm (removable_pieces c)) :
    apply_removals initial_board (greedy S cands (-0.35)) (square 4 (back_rank c))
      = some (.king, c) ∧
    (greedy S cands (-0.35)).length ≤ 15 ∧
    ∀ (sq : Nat) (pt : PieceType), initial_board sq = some (pt, c.other) →
      apply_removals initial_board (greedy S cands (-0.35)) sq = some (pt, c.other) := by
  have hsub : ∀ x ∈ greedy S cands (-0.35), x ∈ (removable_pieces c).map Prod.fst :=
    fun x hx => ((hperm.map Prod.fst).mem_iff).mp (greedy_subset S cands (-0.35) x hx)
  refine ⟨?_, ?_, ?_⟩
  · have hking : square 4 (back_rank c) ∉ (removable_pieces c).map Prod.fst := by
      rw [removable_squares]; cases c <;> decide
    rw [apply_removals_not_mem _ _ _ (fun h => hking (hsub _ h))]
    cases c <;> rfl
  · calc (greedy S cands (-0.35)).length ≤ cands.length := greedy_length S cands (-0.35)
      _ = 15 := by rw [hperm.length_eq]; cases c <;> rfl
  · intro sq pt h
    by_cases h64 : sq < 64
    · have hnot := other_side_not_candidate_fin c ⟨sq, h64⟩ pt h
      rw [apply_removals_not_mem _ _ _ (fun hx => hnot (hsub _ hx)), h]
    · rw [initial_board_none sq (le_of_not_lt h64)] at h
      exact absurd h (by simp)

/-- Witness for C9 with White handicapped, `S = 3` and the source ordering. -/
theorem synthesizer_frame_witness :
    (removable_pieces .white).Perm (removable_pieces .white) ∧
    (apply_removals initial_board (greedy 3 (removable_pieces .white) (-0.35))
        (square 4 (back_rank .white)) = some (.king, .white) ∧
      (greedy 3 (removable_pieces .white) (-0.35)).length ≤ 15 ∧
      ∀ (sq : Nat) (pt : PieceType), initial_board sq = some (pt, Color.white.other) →
        apply_removals initial_board (greedy 3 (removable_pieces .white) (-0.35)) sq
          = some (pt, Color.white.other)) :=
  ⟨List.Perm.refl _,
    synthesizer_frame .white 3 (removable_pieces .white) (List.Perm.refl _)⟩

end FenGen
